import Mathlib

/-!
Verification of the mibsh SNMP operation core: walk engine batching and
cancellation delivery, session connectivity guards, result history capping,
table walk collection, and result tree construction.

Each definition is a shallow embedding of the corresponding Go function from
the repository (`snmp_ops.go`, `internal/snmp/ops.go`, `internal/snmp/session.go`,
`snmp_result.go`, `app_snmp.go`, and the result tree builder). External
collaborators (the MIB schema oracle, PDU value formatting, the wire transport)
are modelled as parameters, matching the repository's interface boundaries.
-/

set_option autoImplicit false

namespace Mibsh

/-- A decoded SNMP value as delivered by the protocol client
(`gosnmp.SnmpPDU`): the identifier string and an abstract payload standing
for the decoded value. -/
structure SnmpPDU where
  name : String
  value : String
deriving DecidableEq

/-- One message on a walk's delivery queue (`walkBatch` in
`internal/snmp/ops.go`): a batch of PDUs, a terminal flag, and the overall
error carried by the terminal message. -/
structure walkBatch where
  pdus : List SnmpPDU
  done : Bool
  err : Option String
deriving DecidableEq

/-- Embedding of `walkBatchSize` from `internal/snmp/ops.go`: the fixed batch size at
which the producer clones the accumulated batch onto the queue. -/
def walkBatchSize : Nat := 100

/-- The error string `context.Canceled` surfaces as in Go. -/
def ctxCanceledErr : String := "context canceled"

/-- The batching loop of the walk producer's callback `walkFn` in
`StartWalkCmd`: values are appended to the in-memory batch; whenever the
batch reaches `walkBatchSize` it is cloned and emitted as a queue message
and the batch is reset. Returns the emitted full batches and the leftover
partial batch. -/
def walkEmit : List SnmpPDU → List SnmpPDU → List walkBatch × List SnmpPDU
  | batch, [] => ([], batch)
  | batch, p :: ps =>
      let b := batch ++ [p]
      if walkBatchSize ≤ b.length then
        let r := walkEmit [] ps
        (⟨b, false, none⟩ :: r.1, r.2)
      else
        walkEmit b ps

/-- The sequence of messages the walk producer goroutine of `StartWalkCmd`
sends on the delivery channel before closing it.

* `pdus` is the full sequence of values the underlying walk primitive
  (`doWalk`) would deliver to the callback if never interrupted, and
  `walkErr` is the primitive's own overall error.
* `cancel = some k` models the context being cancelled after the callback
  has appended `k` values: the callback's `ctx.Err()` check then aborts the
  walk, and `doWalk` returns the context error.
* After a cancellation both the flush of the partial batch and the terminal
  marker are sent through `select { case ch <- …: case <-ctx.Done(): }`
  with both cases ready, so each send may or may not happen; `sendFlush`
  and `sendDone` record which case the Go runtime selected. Without
  cancellation the sends always complete (the consumer keeps pulling).

After these messages the producer closes the channel. -/
def producerSent (pdus : List SnmpPDU) (walkErr : Option String)
    (cancel : Option Nat) (sendFlush sendDone : Bool) : List walkBatch :=
  let seen := match cancel with
    | none => pdus
    | some k => pdus.take k
  let er := walkEmit [] seen
  let err : Option String := match cancel with
    | none => walkErr
    | some _ => some ctxCanceledErr
  let flush := if !er.2.isEmpty && (cancel.isNone || sendFlush) then
      [(⟨er.2, false, none⟩ : walkBatch)] else []
  let dones := if cancel.isNone || sendDone then
      [(⟨[], true, err⟩ : walkBatch)] else []
  er.1 ++ flush ++ dones

/-- The consumer side of the pull protocol: `WaitWalkCmd` receives queue
messages one at a time; a receive on the closed channel yields a synthetic
`WalkBatchMsg{Done: true}` with no error; `handleWalkBatch` stops re-issuing
`WaitWalkCmd` after the first terminal message. `consume sent` is therefore
the sequence of messages the consumer observes, given the messages the
producer sent before closing the channel. -/
def consume : List walkBatch → List walkBatch
  | [] => [⟨[], true, none⟩]
  | b :: bs => if b.done then [b] else b :: consume bs

/-- An SNMP response packet (`gosnmp.SnmpPacket`), reduced to the part the
operation layer reads: its variable bindings (`pkt.Variables`; named `vars`
here because `variables` is reserved in Lean). -/
structure SnmpPacket where
  vars : List SnmpPDU
deriving DecidableEq

/-- The wire transport (`gosnmp.GoSNMP` client), modelled as an oracle: each
request method returns the response packet and an optional error. -/
structure Client where
  get : List String → SnmpPacket × Option String
  getNext : List String → SnmpPacket × Option String

/-- Embedding of `Session` from `internal/snmp/session.go`: connection state. The
transport handle `client` is `none` when the Go field would be nil. A nil
`*Session` pointer is modelled as `none` at use sites (`Option Session`). -/
structure Session where
  client : Option Client
  target : String
  version : String
  connected : Bool

/-- Embedding of `Session.IsConnected` from `internal/snmp/session.go`:
`s != nil && s.connected && s.client != nil`, nil-safe on the receiver. -/
def Session.IsConnected : Option Session → Bool
  | none => false
  | some s => s.connected && s.client.isSome

/-- Embedding of `GetMsg` from `internal/snmp/ops.go`. -/
structure GetMsg where
  results : List SnmpPDU
  err : Option String
deriving DecidableEq

/-- Embedding of `GetNextMsg` from `internal/snmp/ops.go`. -/
structure GetNextMsg where
  oid : String
  results : List SnmpPDU
  err : Option String
deriving DecidableEq

/-- Embedding of `snmpCmd` from `internal/snmp/ops.go`, instrumented with the number of
transport invocations (how many times `op` ran): if the session is not
connected it returns `buildMsg(nil, "not connected")` without touching the
network; otherwise it runs the operation once and wraps its outcome. The
connected branch reads `sess.client`; `IsConnected` guarantees it is
present, and the impossible nil case is mapped to the same guard message. -/
def snmpCmd {μ : Type} (sess : Option Session)
    (op : Client → SnmpPacket × Option String)
    (buildMsg : List SnmpPDU → Option String → μ) : μ × Nat :=
  if !(Session.IsConnected sess) then
    (buildMsg [] (some "not connected"), 0)
  else
    match sess with
    | some s =>
        match s.client with
        | some c =>
            let r := op c
            match r.2 with
            | some e => (buildMsg [] (some e), 1)
            | none => (buildMsg r.1.vars none, 1)
        | none => (buildMsg [] (some "not connected"), 0)
    | none => (buildMsg [] (some "not connected"), 0)

/-- Embedding of `GetCmd` from `internal/snmp/ops.go`: one GET request for one or more
identifiers, via `snmpCmd`. -/
def GetCmd (sess : Option Session) (oids : List String) : GetMsg × Nat :=
  snmpCmd sess (fun c => c.get oids) (fun results err => ⟨results, err⟩)

/-- Embedding of `GetNextCmd` from `internal/snmp/ops.go`: one GET-NEXT request for the
lexicographic successor of `oid`, via `snmpCmd`. -/
def GetNextCmd (sess : Option Session) (oid : String) : GetNextMsg × Nat :=
  snmpCmd sess (fun c => c.getNext [oid]) (fun results err => ⟨oid, results, err⟩)

/-- Embedding of `opKind` from `snmp_result.go`. -/
inductive opKind where
  | opGet
  | opGetNext
  | opWalk
deriving DecidableEq

/-- Embedding of `snmpResult` from `snmp_result.go`: one formatted SNMP result. -/
structure snmpResult where
  oid : String
  name : String
  value : String
  typeName : String
deriving DecidableEq

/-- Embedding of `resultGroup` from `snmp_result.go`: the outcome of one operation.
`walkRootOID` is the parsed root identifier (`mib.OID`, a sequence of
arcs), `none` standing for a nil OID. -/
structure resultGroup where
  op : opKind
  label : String
  results : List snmpResult
  err : Option String
  walkRootOID : Option (List Nat)
deriving DecidableEq

/-- Embedding of `resultHistoryCapacity` from `snmp_result.go`. -/
def resultHistoryCapacity : Nat := 50

/-- Embedding of `resultHistory` from `snmp_result.go`: the capped group store plus the
navigation cursor. -/
structure resultHistory where
  groups : List resultGroup
  cursor : Int
deriving DecidableEq

/-- The zero value of `resultHistory` in Go: no groups, cursor 0. -/
def resultHistory.empty : resultHistory := ⟨[], 0⟩

/-- Embedding of `resultHistory.add` from `snmp_result.go`: when at capacity, shift every
group left by one (dropping the oldest) and overwrite the last slot;
otherwise append. The cursor then points at the last group. -/
def resultHistory.add (h : resultHistory) (g : resultGroup) : resultHistory :=
  let groups :=
    if resultHistoryCapacity ≤ h.groups.length then
      h.groups.tail ++ [g]
    else
      h.groups ++ [g]
  ⟨groups, (groups.length : Int) - 1⟩

/-- Folding `resultHistory.add` over a list of groups, starting from the
empty history. -/
def resultHistory.ofGroups (gs : List resultGroup) : resultHistory :=
  gs.foldl resultHistory.add resultHistory.empty

/-- Embedding of `mib.OID.String` / `formatSuffix`: dotted decimal rendering of an arc
sequence (empty sequence renders as the empty string). -/
def oidToString (oid : List Nat) : String :=
  String.intercalate "." (oid.map toString)

/-- A node of the MIB schema as seen through the oracle: its name, its
identifier, and its parent chain (`Parent()` links), nearest parent first.
An ancestor's identifier may be nil (`none`). -/
structure MibRef where
  name : String
  oid : Option (List Nat)
deriving DecidableEq

/-- A schema node returned by longest-prefix lookup: matched nodes always
carry a non-nil identifier. `ancestors` is the chain of `Parent()` nodes. -/
structure MibNode where
  name : String
  oid : List Nat
  ancestors : List MibRef
deriving DecidableEq

/-- The read-only MIB schema collaborator (`*mib.Mib`): identifier parsing
and longest-prefix lookup. -/
structure Mib where
  parseOID : String → Option (List Nat)
  longestPrefixByOID : List Nat → Option MibNode

/-! ### Table schema and walk collector (`internal/snmp/ops.go`) -/

/-- Embedding of `tableColInfo`: one column of a table walk. -/
structure tableColInfo where
  name : String
  oid : List Nat
  idx : Nat
deriving DecidableEq

/-- Embedding of `tableRowData`: the cell values for one row, keyed by index suffix. -/
structure tableRowData where
  suffix : String
  cells : List String
deriving DecidableEq

/-- Embedding of `tableSchema`: column layout and index count. The Go `colMap` is a map
keyed by the column identifier's string form; identifiers are modelled
directly as arc lists (the string form is injective on arc lists), and the
map as an association list. -/
structure tableSchema where
  colMap : List (List Nat × tableColInfo)
  colList : List tableColInfo
  colNames : List String
  indexCols : Nat

/-- First-match association lookup, the meaning of Go's `colMap[oid]`. -/
def lookupColInfo : List (List Nat × tableColInfo) → List Nat → Option tableColInfo
  | [], _ => none
  | (k, v) :: rest, key => if k = key then some v else lookupColInfo rest key

/-- Embedding of `buildTableSchema`: orders the table's columns, keys them by identifier,
and counts the columns whose names appear in the table's effective index
definition (`IndexNameSet`, supplied here as the name list `indexNames`). -/
def buildTableSchema (cols : List (String × List Nat)) (indexNames : List String) :
    tableSchema :=
  let colList := cols.enum.map (fun p => (⟨p.2.1, p.2.2, p.1⟩ : tableColInfo))
  let colMap := colList.map (fun ci => (ci.oid, ci))
  let colNames := colList.map (fun ci => ci.name)
  let indexCols := (colList.filter (fun ci => indexNames.contains ci.name)).length
  ⟨colMap, colList, colNames, indexCols⟩

/-- Embedding of `tableWalkCollector`: accumulates PDU data during a table walk. The Go
`rowMap` (map from index suffix to `*tableRowData`) is an association list;
`rowOrder` records first-seen key order as in the source. -/
structure tableWalkCollector where
  schema : tableSchema
  rowMap : List (String × tableRowData)
  rowOrder : List String

/-- Embedding of `newTableWalkCollector`. -/
def newTableWalkCollector (schema : tableSchema) : tableWalkCollector :=
  ⟨schema, [], []⟩

/-- First-match association lookup on the row map (`rowMap[suffixStr]`). -/
def lookupRow : List (String × tableRowData) → String → Option tableRowData
  | [], _ => none
  | (k, v) :: rest, key => if k = key then some v else lookupRow rest key

/-- Replace the (unique) binding of `k`, modelling Go's in-place mutation of
the `*tableRowData` stored in the map. -/
def setRow : List (String × tableRowData) → String → tableRowData → List (String × tableRowData)
  | [], _, _ => []
  | (k, v) :: rest, key, rd =>
      if k = key then (key, rd) :: rest else (k, v) :: setRow rest key rd

/-- Embedding of `tableWalkCollector.handlePDU`: resolve the owning column by
longest-prefix lookup, compute the row key as the identifier suffix beyond
the matched node's identifier (empty suffix normalised to `"0"`), create
the row on first sight with one empty cell per column, and store the
formatted value (via the formatting oracle `fmt`, standing for `formatPDU`)
at the owning column's position. Unmappable PDUs are skipped. The second
component is the error returned to the walk primitive. -/
def handlePDU (mb : Mib) (fmt : SnmpPDU → MibNode → String)
    (c : tableWalkCollector) (pdu : SnmpPDU) : tableWalkCollector × Option String :=
  match mb.parseOID pdu.name with
  | none => (c, none)
  | some oid =>
    match mb.longestPrefixByOID oid with
    | none => (c, none)
    | some node =>
      match lookupColInfo c.schema.colMap node.oid with
      | none => (c, none)
      | some ci =>
        let suffix := oid.drop node.oid.length
        let suffixStr := if oidToString suffix = "" then "0" else oidToString suffix
        let next :=
          match lookupRow c.rowMap suffixStr with
          | some rd => (c.rowMap, c.rowOrder, rd)
          | none =>
            let rd : tableRowData := ⟨suffixStr, List.replicate c.schema.colList.length ""⟩
            (c.rowMap ++ [(suffixStr, rd)], c.rowOrder ++ [suffixStr], rd)
        let rd := next.2.2
        let rd' : tableRowData := ⟨rd.suffix, rd.cells.set ci.idx (fmt pdu node)⟩
        (⟨c.schema, setRow next.1 suffixStr rd', next.2.1⟩, none)

/-- Embedding of `tableWalkCollector.buildTableRows`: convert collected data into ordered
row slices, filling empty cells with `"-"` (nil when no rows were seen). -/
def buildTableRows (c : tableWalkCollector) : List (List String) :=
  if c.rowOrder.isEmpty then [] else
  c.rowOrder.map (fun k =>
    match lookupRow c.rowMap k with
    | some rd => rd.cells.map (fun s => if s = "" then "-" else s)
    | none => [])

/-- The collector state after the walk primitive has fed every PDU of
`pdus` to `handlePDU`, as `TableWalkCmd` does. -/
def runCollector (mb : Mib) (fmt : SnmpPDU → MibNode → String)
    (c : tableWalkCollector) (pdus : List SnmpPDU) : tableWalkCollector :=
  pdus.foldl (fun c p => (handlePDU mb fmt c p).1) c

/-- The (row key, column position) a PDU writes to, when `handlePDU` maps
it; `none` exactly when the PDU is skipped. -/
def pduWrite (mb : Mib) (schema : tableSchema) (pdu : SnmpPDU) : Option (String × Nat) :=
  match mb.parseOID pdu.name with
  | none => none
  | some oid =>
    match mb.longestPrefixByOID oid with
    | none => none
    | some node =>
      match lookupColInfo schema.colMap node.oid with
      | none => none
      | some ci =>
        let suffix := oid.drop node.oid.length
        let suffixStr := if oidToString suffix = "" then "0" else oidToString suffix
        some (suffixStr, ci.idx)

/-- The set of cell positions a walk writes, in walk order. -/
def collectorWrites (mb : Mib) (schema : tableSchema) (pdus : List SnmpPDU) :
    List (String × Nat) :=
  pdus.filterMap (pduWrite mb schema)

/-- The collector's raw cell content at row key `k`, column `i` (the empty
string both for a missing row and for a cell still at its creation
value). -/
def cellValue (c : tableWalkCollector) (k : String) (i : Nat) : String :=
  match lookupRow c.rowMap k with
  | some rd => rd.cells.getD i ""
  | none => ""

/-- Row-shape invariant: every collected row has one cell per column. -/
def rowsWF (c : tableWalkCollector) : Prop :=
  ∀ p ∈ c.rowMap, p.2.cells.length = c.schema.colList.length

/-- Key invariant: every key in the first-seen order has a row. -/
def rowsKeyed (c : tableWalkCollector) : Prop :=
  ∀ k ∈ c.rowOrder, (lookupRow c.rowMap k).isSome = true

/-! ### Result tree builder (`resulttree.go`) -/

/-- Embedding of `resultTreeNode`: a node of the hierarchical result display. Branch
nodes group results by MIB subtree; leaf nodes hold individual results.
The `*mib.Node` reference is modelled by its observable data (`MibRef`). -/
inductive resultTreeNode where
  | mk (name : String) (oid : Option (List Nat)) (mibNode : Option MibRef)
      (result : Option snmpResult) (children : List resultTreeNode)
      (expanded : Bool) (depth : Nat)

/-- Field projection: `name`. -/
def resultTreeNode.name : resultTreeNode → String
  | .mk n _ _ _ _ _ _ => n

/-- Field projection: `children`. -/
def resultTreeNode.children : resultTreeNode → List resultTreeNode
  | .mk _ _ _ _ cs _ _ => cs

/-- Field projection: `depth`. -/
def resultTreeNode.depth : resultTreeNode → Nat
  | .mk _ _ _ _ _ _ d => d

/-- Field projection: `result`. -/
def resultTreeNode.result : resultTreeNode → Option snmpResult
  | .mk _ _ _ r _ _ _ => r

/-- Replace a node's children, keeping every other field (the pure image of
mutating `current.children` in Go). -/
def resultTreeNode.withChildren : resultTreeNode → List resultTreeNode → resultTreeNode
  | .mk n o mn r _ e d, cs => .mk n o mn r cs e d

/-- The stop test of `buildGroupPath`'s upward loop: the current node's
identifier is non-nil and sits at or above the declared walk root
(`len(nOID) <= len(walkRootOID) && walkRootOID.HasPrefix(nOID)`). -/
def oidStopsAtRoot (walkRoot : Option (List Nat)) (noid : Option (List Nat)) : Bool :=
  match noid, walkRoot with
  | some nOID, some rootOID => nOID.length ≤ rootOID.length && nOID.isPrefixOf rootOID
  | _, _ => false

/-- The upward collection loop of `buildGroupPath`: walk the parent chain,
stopping (exclusively) at the first node at or above the walk root. -/
def collectAncestors (walkRoot : Option (List Nat)) : List MibRef → List MibRef
  | [] => []
  | a :: rest =>
      if oidStopsAtRoot walkRoot a.oid then [] else a :: collectAncestors walkRoot rest

/-- Embedding of `buildGroupPath`: ancestor nodes between the walk root and the result's
MIB node in root-to-leaf order, excluding the node itself (Go returns nil
unless more than one node was collected). -/
def buildGroupPath (node : MibNode) (walkRoot : Option (List Nat)) : List MibRef :=
  let chain : List MibRef := ⟨node.name, some node.oid⟩ :: node.ancestors
  let ordered := (collectAncestors walkRoot chain).reverse
  if 1 < ordered.length then ordered.dropLast else []

/-- Embedding of `findChild`-or-create-then-update, the pure image of the Go pattern
`child := findChild(current, name); if child == nil { child = fresh;
append }` followed by further mutation `f` of the selected child: the first
child named `nm` is replaced by its `f`-image, or `f fresh` is appended
when no child carries the name. -/
def upsertChild (nm : String) (fresh : resultTreeNode)
    (f : resultTreeNode → resultTreeNode) :
    List resultTreeNode → List resultTreeNode
  | [] => [f fresh]
  | c :: cs =>
      if c.name = nm then f c :: cs else c :: upsertChild nm fresh f cs

/-- The leaf/suffix attachment step of `insertResultIntoTree` once the
grouping path has been descended: with a non-empty identifier suffix the
result becomes a suffix-named leaf under a find-or-created group for the
MIB node; with an empty suffix it is attached directly as a leaf. -/
def attachResult (node : MibNode) (oid : List Nat) (res : snmpResult)
    (cur : resultTreeNode) : resultTreeNode :=
  let suffix := oid.drop node.oid.length
  if 0 < suffix.length then
    let freshGroup : resultTreeNode :=
      .mk node.name (some node.oid) (some ⟨node.name, some node.oid⟩) none [] true
        (cur.depth + 1)
    cur.withChildren (upsertChild node.name freshGroup
      (fun g => g.withChildren (g.children ++
        [.mk (oidToString suffix) (some oid) none (some res) [] false (g.depth + 1)]))
      cur.children)
  else
    cur.withChildren (cur.children ++
      [.mk node.name (some oid) (some ⟨node.name, some node.oid⟩) (some res) [] false
        (cur.depth + 1)])

/-- The navigate-or-create descent of `insertResultIntoTree` along the
grouping path, ending in `attach` at the destination node. -/
def insertAtPath (attach : resultTreeNode → resultTreeNode) :
    List MibRef → resultTreeNode → resultTreeNode
  | [], cur => attach cur
  | gn :: rest, cur =>
      cur.withChildren
        (upsertChild gn.name (.mk gn.name gn.oid (some gn) none [] true (cur.depth + 1))
          (insertAtPath attach rest) cur.children)

/-- Embedding of `insertResultIntoTree`: unparseable or unmatched identifiers degrade to
a flat leaf under the root; otherwise the result is inserted below the
intermediate group nodes of its grouping path. -/
def insertResultIntoTree (mb : Mib) (walkRoot : Option (List Nat))
    (root : resultTreeNode) (res : snmpResult) : resultTreeNode :=
  match mb.parseOID res.oid with
  | none =>
      root.withChildren (root.children ++ [.mk res.name none none (some res) [] false 1])
  | some oid =>
    match mb.longestPrefixByOID oid with
    | none =>
        root.withChildren
          (root.children ++ [.mk res.name (some oid) none (some res) [] false 1])
    | some node =>
        insertAtPath (attachResult node oid res) (buildGroupPath node walkRoot) root

/-- The synthetic root `buildResultTree` starts from. -/
def resultTreeRoot : resultTreeNode := .mk "results" none none none [] true 0

/-- Embedding of `buildResultTree`: insert every result in order into the synthetic
root. -/
def buildResultTree (mb : Mib) (results : List snmpResult)
    (walkRoot : Option (List Nat)) : resultTreeNode :=
  results.foldl (insertResultIntoTree mb walkRoot) resultTreeRoot

/-- No two names repeat in the list (executable). -/
def allDistinct : List String → Bool
  | [] => true
  | x :: xs => !(decide (x ∈ xs)) && allDistinct xs

/-- The names of the branch children (children that have children of their
own) of a node's child list. -/
def branchNames (cs : List resultTreeNode) : List String :=
  (cs.filter (fun c => !c.children.isEmpty)).map resultTreeNode.name

/-- Branch-name uniqueness, recursively: at every node of the tree, no two
children that have children of their own share a name. -/
def branchNamesUnique : resultTreeNode → Bool
  | .mk _ _ _ _ cs _ _ =>
      allDistinct (branchNames cs) && cs.attach.all (fun c => branchNamesUnique c.1)
termination_by t => sizeOf t
decreasing_by
  have h := List.sizeOf_lt_of_mem c.2
  simp_wf
  omega

/-! ### Application-level guards (`app_snmp.go`) -/

/-- Embedding of `statusType` from the status bar. -/
inductive statusType where
  | statusInfo
  | statusSuccess
  | statusWarn
  | statusError
deriving DecidableEq

/-- Embedding of `statusMsg`: the current status bar content. -/
structure statusMsg where
  typ : statusType
  text : String
deriving DecidableEq

/-- The `tea.Cmd` values the SNMP entry points of `app_snmp.go` can return,
by observable effect: a status-clear timer, or one of the network
operations. `none` models a nil command. -/
inductive teaCmd where
  | clearStatusTimer
  | netGet (oids : List String)
  | netGetNext (oid : String)
  | netTableWalk (table : String)
deriving DecidableEq

/-- Whether a command performs a network operation. -/
def teaCmd.isNetwork : teaCmd → Bool
  | .clearStatusTimer => false
  | .netGet _ => true
  | .netGetNext _ => true
  | .netTableWalk _ => true

/-- Embedding of `bottomPane` values used by the SNMP entry points. -/
inductive bottomPaneKind where
  | bottomResults
  | bottomTableData
  | bottomDetail
deriving DecidableEq

/-- Focus values used by the SNMP entry points. -/
inductive focusKind where
  | focusTree
  | focusResults
deriving DecidableEq

/-- Embedding of `mib.Kind` reduced to what `snmpGet` inspects: scalar or not. -/
inductive nodeKind where
  | scalar
  | other
deriving DecidableEq

/-- The tree selection as `requireSelectedOID`/`snmpTableData` observe it:
the selected node's identifier (`none` for a nil OID), its kind, and the
name of the table it resolves to via `resolveTable` (`none` when it is not
a table node). A `none` selection models no selected node. -/
structure selNode where
  oid : Option (List Nat)
  kind : nodeKind
  tableName : Option String

/-- Embedding of `resultModel` reduced to the aggregation state the SNMP entry points
touch: the history and the walk status line. -/
structure resultModel where
  history : resultHistory
  walkStatus : String

/-- The application model (`model`), reduced to the fields the SNMP entry
points of `app_snmp.go` read or write: session, in-flight walk handle,
result aggregation, status bar, pane/focus state, the tree selection, and
the table pane's loading label. -/
structure AppModel where
  snmp : Option Session
  walk : Option Unit
  results : resultModel
  status : Option statusMsg
  bottomPane : bottomPaneKind
  focus : focusKind
  selected : Option selNode
  tableLoading : Option String

/-- Embedding of `setStatusReturn`: set the status message and return a clear-after
command. -/
def setStatusReturn (m : AppModel) (typ : statusType) (text : String) :
    AppModel × Option teaCmd :=
  ({ m with status := some ⟨typ, text⟩ }, some .clearStatusTimer)

/-- Embedding of `setStatus`: set the status message in place. -/
def setStatus (m : AppModel) (typ : statusType) (text : String) : AppModel :=
  { m with status := some ⟨typ, text⟩ }

/-- Embedding of `requireConnectedIdle` from `app_snmp.go`: connected and no walk in
progress, else a status message and `ok = false`. The main package's
`snmpSession.isConnected` method body is not present under `src/`; it is
modelled from the spec's single connectivity predicate (§4.1: nil-safe,
true only when connected with a non-nil transport handle), identical to
`Session.IsConnected` in `internal/snmp/session.go`. -/
def requireConnectedIdle (m : AppModel) : AppModel × Option teaCmd × Bool :=
  if !(Session.IsConnected m.snmp) then
    let r := setStatusReturn m .statusError "Not connected"
    (r.1, r.2, false)
  else if m.walk.isSome then
    let r := setStatusReturn m .statusWarn "Walk in progress"
    (r.1, r.2, false)
  else
    (m, none, true)

/-- Embedding of `requireSelectedOID`: the selected node and its identifier, requiring at
least two arcs. -/
def requireSelectedOID (m : AppModel) :
    Option (selNode × List Nat) × AppModel × Option teaCmd × Bool :=
  match m.selected with
  | none => (none, m, none, false)
  | some node =>
    match node.oid with
    | none => (none, m, none, false)
    | some oid =>
      if oid.length < 2 then
        let r := setStatusReturn m .statusWarn
          "OID too short for SNMP, select a node deeper in the tree"
        (none, r.1, r.2, false)
      else
        (some (node, oid), m, none, true)

/-- Embedding of `snmpGet` from `app_snmp.go`: guard on connected-and-idle, then on the
selection, then issue a GET (appending `.0` for scalar nodes). -/
def snmpGet (m : AppModel) : AppModel × Option teaCmd :=
  let rc := requireConnectedIdle m
  if rc.2.2 = false then (rc.1, rc.2.1) else
  let rs := requireSelectedOID m
  if rs.2.2.2 = false then (rs.2.1, rs.2.2.1) else
  match rs.1 with
  | some sel =>
      let oidStr :=
        if sel.1.kind = .scalar then oidToString sel.2 ++ ".0" else oidToString sel.2
      (m, some (.netGet [oidStr]))
  | none => (m, none)

/-- Embedding of `snmpGetNext` from `app_snmp.go`. -/
def snmpGetNext (m : AppModel) : AppModel × Option teaCmd :=
  let rc := requireConnectedIdle m
  if rc.2.2 = false then (rc.1, rc.2.1) else
  let rs := requireSelectedOID m
  if rs.2.2.2 = false then (rs.2.1, rs.2.2.1) else
  match rs.1 with
  | some sel => (m, some (.netGetNext (oidToString sel.2)))
  | none => (m, none)

/-- Embedding of `snmpTableData` from `app_snmp.go`: guard on connected-and-idle, then
resolve the selected node to a table; a non-table selection produces a
status warning, a table starts the fetch (loading label, pane and focus
switch, info status, table walk command). -/
def snmpTableData (m : AppModel) : AppModel × Option teaCmd :=
  let rc := requireConnectedIdle m
  if rc.2.2 = false then (rc.1, rc.2.1) else
  match m.selected with
  | none => (m, none)
  | some node =>
    match node.tableName with
    | none => setStatusReturn m .statusWarn "Not a table node"
    | some tbl =>
        let m' := { m with
          tableLoading := some ("TABLE " ++ tbl),
          bottomPane := .bottomTableData,
          focus := .focusResults }
        (setStatus m' .statusInfo ("Fetching " ++ tbl ++ "..."),
          some (.netTableWalk tbl))

/-! ### Concrete instances used to exercise the definitions -/

/-- A transport stub answering every request with an empty packet. -/
def clientStub : Client :=
  ⟨fun _ => (⟨[]⟩, none), fun _ => (⟨[]⟩, none)⟩

/-- A connected session with a walk in flight, for exercising the
connected-and-idle guard. -/
def mWalkActive : AppModel where
  snmp := some ⟨some clientStub, "host", "2c", true⟩
  walk := some ()
  results := ⟨resultHistory.empty, "walking..."⟩
  status := none
  bottomPane := .bottomResults
  focus := .focusTree
  selected := none
  tableLoading := none

/-- Fifty-one distinct result groups. -/
def gs51 : List resultGroup :=
  (List.range 51).map (fun i => ⟨.opGet, toString i, [], none, none⟩)

/-- Two hundred fifty walk values, as in the spec's batching example. -/
def pdus250 : List SnmpPDU :=
  (List.range 250).map (fun i => ⟨toString i, ""⟩)

/-- One hundred twenty walk values, enough for one full batch plus a
partial one. -/
def pdus120 : List SnmpPDU :=
  (List.range 120).map (fun i => ⟨toString i, ""⟩)

/-- A one-column-match MIB oracle: the only parseable identifier is
`1.3.1.1.5`, owned by column node `col1` at `1.3.1.1`. -/
def mibStub : Mib where
  parseOID := fun s => if s = "1.3.1.1.5" then some [1, 3, 1, 1, 5] else none
  longestPrefixByOID := fun o =>
    if o = [1, 3, 1, 1, 5] then some ⟨"col1", [1, 3, 1, 1], []⟩ else none

/-- A formatting oracle rendering a PDU as its payload. -/
def fmtStub : SnmpPDU → MibNode → String := fun pdu _ => pdu.value

/-- A two-column table layout. -/
def colsStub : List (String × List Nat) :=
  [("col1", [1, 3, 1, 1]), ("col2", [1, 3, 1, 2])]

/-- The schema built from `colsStub` with no index columns. -/
def schemaStub : tableSchema := buildTableSchema colsStub []

/-- A fresh collector over `schemaStub`. -/
def collectorStub : tableWalkCollector := newTableWalkCollector schemaStub

/-- A PDU owned by `col1` at instance suffix `5`. -/
def pduStub : SnmpPDU := ⟨"1.3.1.1.5", "v"⟩

/-- The collector after handling exactly `pduStub`. -/
def collectorRun1 : tableWalkCollector :=
  runCollector mibStub fmtStub collectorStub [pduStub]

/-! Concrete table-instance scenario for the result tree: walking `ifTable`
(root `1.3.6.1.2.1.2.2`) yields two instances of column `ifDescr`
(`…2.2.1.2.1` and `…2.2.1.2.2`). -/

/-- The `ifDescr` column node with its parent chain. -/
def ifDescrNode : MibNode where
  name := "ifDescr"
  oid := [1, 3, 6, 1, 2, 1, 2, 2, 1, 2]
  ancestors :=
    [⟨"ifEntry", some [1, 3, 6, 1, 2, 1, 2, 2, 1]⟩,
     ⟨"ifTable", some [1, 3, 6, 1, 2, 1, 2, 2]⟩,
     ⟨"interfaces", some [1, 3, 6, 1, 2, 1, 2]⟩]

/-- A MIB oracle resolving the two `ifDescr` instances. -/
def mibIfTable : Mib where
  parseOID := fun s =>
    if s = "1.3.6.1.2.1.2.2.1.2.1" then some [1, 3, 6, 1, 2, 1, 2, 2, 1, 2, 1]
    else if s = "1.3.6.1.2.1.2.2.1.2.2" then some [1, 3, 6, 1, 2, 1, 2, 2, 1, 2, 2]
    else none
  longestPrefixByOID := fun o =>
    if o = [1, 3, 6, 1, 2, 1, 2, 2, 1, 2, 1] then some ifDescrNode
    else if o = [1, 3, 6, 1, 2, 1, 2, 2, 1, 2, 2] then some ifDescrNode
    else none

/-- First table-instance result (`ifDescr.1`). -/
def resIf1 : snmpResult := ⟨"1.3.6.1.2.1.2.2.1.2.1", "ifDescr.1", "eth0", "STRING"⟩

/-- Second table-instance result (`ifDescr.2`). -/
def resIf2 : snmpResult := ⟨"1.3.6.1.2.1.2.2.1.2.2", "ifDescr.2", "eth1", "STRING"⟩

/-- The tree shape the two insertions must produce: a single `ifEntry`
group holding a single `ifDescr` branch with one leaf per instance
suffix. -/
def expectedIfTree : resultTreeNode :=
  .mk "results" none none none
    [.mk "ifEntry" (some [1, 3, 6, 1, 2, 1, 2, 2, 1])
      (some ⟨"ifEntry", some [1, 3, 6, 1, 2, 1, 2, 2, 1]⟩) none
      [.mk "ifDescr" (some [1, 3, 6, 1, 2, 1, 2, 2, 1, 2])
        (some ⟨"ifDescr", some [1, 3, 6, 1, 2, 1, 2, 2, 1, 2]⟩) none
        [.mk "1" (some [1, 3, 6, 1, 2, 1, 2, 2, 1, 2, 1]) none (some resIf1) [] false 3,
         .mk "2" (some [1, 3, 6, 1, 2, 1, 2, 2, 1, 2, 2]) none (some resIf2) [] false 3]
        true 2]
      true 1]
    true 0

/-! ## Theorems -/

/-- C3: whenever `IsConnected` is false — which covers a nil session, an
unset connected flag, and a nil transport handle — `GetCmd` and
`GetNextCmd` return the `not connected` error with no results and invoke
the transport zero times. -/
theorem not_connected_guard (sess : Option Session) (oids : List String) (oid : String)
    (h : Session.IsConnected sess = false) :
    GetCmd sess oids = (⟨[], some "not connected"⟩, 0) ∧
    GetNextCmd sess oid = (⟨oid, [], some "not connected"⟩, 0) ∧
    Session.IsConnected none = false ∧
    (∀ s : Session, s.connected = false → Session.IsConnected (some s) = false) ∧
    (∀ s : Session, s.client = none → Session.IsConnected (some s) = false) := by
  refine ⟨?_, ?_, rfl, ?_, ?_⟩
  · simp [GetCmd, snmpCmd, h]
  · simp [GetNextCmd, snmpCmd, h]
  · intro s hs; simp [Session.IsConnected, hs]
  · intro s hs; simp [Session.IsConnected, hs]

/-- Witness for `not_connected_guard` at the nil session. -/
theorem not_connected_guard_witness :
    GetCmd none ["1.3.6.1"] = (⟨[], some "not connected"⟩, 0) ∧
    GetNextCmd none "1.3.6.1" = (⟨"1.3.6.1", [], some "not connected"⟩, 0) :=
  ⟨(not_connected_guard none ["1.3.6.1"] "1.3.6.1" rfl).1,
   (not_connected_guard none ["1.3.6.1"] "1.3.6.1" rfl).2.1⟩

/-- C4: with a connected session and an in-flight walk handle, `snmpGet`,
`snmpGetNext` and `snmpTableData` all return synchronously with the
`Walk in progress` warning and only the status-clear timer command — no
network operation — and the result history is unchanged. -/
theorem walk_in_progress_guard (m : AppModel)
    (hconn : Session.IsConnected m.snmp = true) (hwalk : m.walk.isSome = true) :
    snmpGet m = (setStatus m .statusWarn "Walk in progress", some .clearStatusTimer) ∧
    snmpGetNext m = (setStatus m .statusWarn "Walk in progress", some .clearStatusTimer) ∧
    snmpTableData m = (setStatus m .statusWarn "Walk in progress", some .clearStatusTimer) ∧
    (snmpGet m).1.results.history = m.results.history ∧
    (snmpGetNext m).1.results.history = m.results.history ∧
    (snmpTableData m).1.results.history = m.results.history ∧
    (∀ c : teaCmd,
      (snmpGet m).2 = some c ∨ (snmpGetNext m).2 = some c ∨ (snmpTableData m).2 = some c →
      c.isNetwork = false) := by
  have hg : snmpGet m = (setStatus m .statusWarn "Walk in progress", some .clearStatusTimer) := by
    simp [snmpGet, requireConnectedIdle, hconn, hwalk, setStatusReturn, setStatus]
  have hn : snmpGetNext m = (setStatus m .statusWarn "Walk in progress", some .clearStatusTimer) := by
    simp [snmpGetNext, requireConnectedIdle, hconn, hwalk, setStatusReturn, setStatus]
  have ht : snmpTableData m = (setStatus m .statusWarn "Walk in progress", some .clearStatusTimer) := by
    simp [snmpTableData, requireConnectedIdle, hconn, hwalk, setStatusReturn, setStatus]
  refine ⟨hg, hn, ht, by simp [hg, setStatus], by simp [hn, setStatus],
    by simp [ht, setStatus], ?_⟩
  intro c hc
  rcases hc with hc | hc | hc
  · rw [hg] at hc; cases hc; rfl
  · rw [hn] at hc; cases hc; rfl
  · rw [ht] at hc; cases hc; rfl

/-- Witness for `walk_in_progress_guard` on a connected model with an
active walk. -/
theorem walk_in_progress_guard_witness :
    (snmpGet mWalkActive).1.results.history = mWalkActive.results.history ∧
    (snmpGetNext mWalkActive).1.results.history = mWalkActive.results.history ∧
    (snmpTableData mWalkActive).1.results.history = mWalkActive.results.history :=
  ⟨(walk_in_progress_guard mWalkActive rfl rfl).2.2.2.1,
   (walk_in_progress_guard mWalkActive rfl rfl).2.2.2.2.1,
   (walk_in_progress_guard mWalkActive rfl rfl).2.2.2.2.2.1⟩

/-- C10: the table walk collector's per-value handler is total — it returns
no error for any input value — and a value whose identifier fails to
parse, matches no schema node, or resolves to a node that is not one of
the table's columns leaves the collector state exactly as it was. -/
theorem handlePDU_total_and_skips (mb : Mib) (fmt : SnmpPDU → MibNode → String)
    (c : tableWalkCollector) (pdu : SnmpPDU) :
    (handlePDU mb fmt c pdu).2 = none ∧
    ((mb.parseOID pdu.name = none ∨
      (∃ oid, mb.parseOID pdu.name = some oid ∧ mb.longestPrefixByOID oid = none) ∨
      (∃ oid node, mb.parseOID pdu.name = some oid ∧
        mb.longestPrefixByOID oid = some node ∧
        lookupColInfo c.schema.colMap node.oid = none)) →
      (handlePDU mb fmt c pdu).1 = c) := by
  constructor
  · rcases hp : mb.parseOID pdu.name with _ | oid
    · simp [handlePDU, hp]
    rcases hl : mb.longestPrefixByOID oid with _ | node
    · simp [handlePDU, hp, hl]
    rcases hc : lookupColInfo c.schema.colMap node.oid with _ | ci
    · simp [handlePDU, hp, hl, hc]
    · simp [handlePDU, hp, hl, hc]
  · intro h
    rcases h with hp | ⟨oid, hp, hl⟩ | ⟨oid, node, hp, hl, hc⟩
    · simp [handlePDU, hp]
    · simp [handlePDU, hp, hl]
    · simp [handlePDU, hp, hl, hc]

/-- Witness for `handlePDU_total_and_skips`: an unparseable identifier is
silently discarded. -/
theorem handlePDU_total_and_skips_witness :
    (handlePDU mibStub fmtStub collectorStub ⟨"zzz", ""⟩).2 = none ∧
    (handlePDU mibStub fmtStub collectorStub ⟨"zzz", ""⟩).1 = collectorStub :=
  ⟨(handlePDU_total_and_skips mibStub fmtStub collectorStub ⟨"zzz", ""⟩).1,
   (handlePDU_total_and_skips mibStub fmtStub collectorStub ⟨"zzz", ""⟩).2 (Or.inl rfl)⟩

theorem ofGroups_concat (gs : List resultGroup) (g : resultGroup) :
    resultHistory.ofGroups (gs ++ [g]) = (resultHistory.ofGroups gs).add g := by
  simp [resultHistory.ofGroups, List.foldl_append]

theorem ofGroups_groups (gs : List resultGroup) :
    (resultHistory.ofGroups gs).groups = gs.drop (gs.length - resultHistoryCapacity) := by
  induction gs using List.reverseRecOn with
  | nil => rfl
  | append_singleton gs g ih =>
    rw [ofGroups_concat]
    simp only [resultHistory.add, ih, resultHistoryCapacity, List.length_drop,
      List.length_append, List.length_singleton]
    by_cases h : 50 ≤ gs.length
    · rw [if_pos (by omega)]
      rw [List.tail_drop, List.drop_append_eq_append_drop]
      have h1 : gs.length + 1 - 50 - gs.length = 0 := by omega
      have h2 : gs.length - 50 + 1 = gs.length + 1 - 50 := by omega
      rw [h1, h2, List.drop_zero]
    · rw [if_neg (by omega)]
      have h1 : gs.length - 50 = 0 := by omega
      have h2 : gs.length + 1 - 50 = 0 := by omega
      rw [h1, h2, List.drop_append_eq_append_drop]
      simp

/-- C5: folding any group sequence through `resultHistory.add` from the
empty history stores exactly the most recent `resultHistoryCapacity`
groups: the count never exceeds the capacity of 50; the stored groups are
the input's suffix (so adding `capacity + 1` groups leaves exactly
`capacity` with the oldest evicted); and after every add the cursor points
at the newest (last) group. -/
theorem resultHistory_capped (gs : List resultGroup) (h : gs ≠ []) :
    (resultHistory.ofGroups gs).groups.length ≤ resultHistoryCapacity ∧
    (resultHistory.ofGroups gs).groups = gs.drop (gs.length - resultHistoryCapacity) ∧
    (resultHistory.ofGroups gs).cursor
      = ((resultHistory.ofGroups gs).groups.length : Int) - 1 ∧
    (gs.length = resultHistoryCapacity + 1 →
      (resultHistory.ofGroups gs).groups = gs.tail ∧
      (resultHistory.ofGroups gs).groups.length = resultHistoryCapacity) := by
  have hg := ofGroups_groups gs
  refine ⟨?_, hg, ?_, ?_⟩
  · rw [hg, List.length_drop]; omega
  · induction gs using List.reverseRecOn with
    | nil => exact absurd rfl h
    | append_singleton gs g _ => rw [ofGroups_concat]; simp [resultHistory.add]
  · intro hlen
    have h1 : gs.length - resultHistoryCapacity = 1 := by omega
    constructor
    · rw [hg, h1, List.drop_one]
    · rw [hg, List.length_drop]; omega

/-- Witness for `resultHistory_capped`: fifty-one groups leave the most
recent fifty, cursor on the newest. -/
theorem resultHistory_capped_witness :
    (resultHistory.ofGroups gs51).groups = gs51.tail ∧
    (resultHistory.ofGroups gs51).groups.length = resultHistoryCapacity ∧
    (resultHistory.ofGroups gs51).cursor
      = ((resultHistory.ofGroups gs51).groups.length : Int) - 1 :=
  ⟨((resultHistory_capped gs51 (by decide)).2.2.2 (by decide)).1,
   ((resultHistory_capped gs51 (by decide)).2.2.2 (by decide)).2,
   (resultHistory_capped gs51 (by decide)).2.2.1⟩

/-- C9: result tree construction is incrementally stable — inserting any
partition of a result list batch by batch (as `appendResults` does while a
walk streams) produces exactly the tree `buildResultTree` builds from the
whole list at once. -/
theorem result_tree_incremental (mb : Mib) (walkRoot : Option (List Nat))
    (batches : List (List snmpResult)) :
    batches.foldl (fun t batch => batch.foldl (insertResultIntoTree mb walkRoot) t)
      resultTreeRoot
      = buildResultTree mb batches.flatten walkRoot := by
  suffices hgen : ∀ t : resultTreeNode,
      batches.foldl (fun t batch => batch.foldl (insertResultIntoTree mb walkRoot) t) t
        = batches.flatten.foldl (insertResultIntoTree mb walkRoot) t by
    exact hgen resultTreeRoot
  induction batches with
  | nil => intro t; rfl
  | cons b bs ih =>
    intro t
    simp only [List.foldl_cons, List.flatten_cons, List.foldl_append]
    exact ih (b.foldl (insertResultIntoTree mb walkRoot) t)

theorem walkEmit_spec (pdus : List SnmpPDU) :
    ∀ batch : List SnmpPDU, batch.length < walkBatchSize →
    ((walkEmit batch pdus).1.map walkBatch.pdus).flatten ++ (walkEmit batch pdus).2
        = batch ++ pdus ∧
    (∀ b ∈ (walkEmit batch pdus).1,
        b.pdus.length = walkBatchSize ∧ b.done = false ∧ b.err = none) ∧
    (walkEmit batch pdus).2.length < walkBatchSize := by
  induction pdus with
  | nil =>
    intro batch hb
    refine ⟨by simp [walkEmit], by simp [walkEmit], by simpa [walkEmit] using hb⟩
  | cons p ps ih =>
    intro batch hb
    by_cases hc : walkBatchSize ≤ (batch ++ [p]).length
    · have hfull : (batch ++ [p]).length = walkBatchSize := by
        simp only [List.length_append, List.length_singleton] at hc ⊢
        omega
      have ih0 := ih [] (by simp [walkBatchSize])
      simp only [walkEmit, if_pos hc]
      refine ⟨?_, ?_, ih0.2.2⟩
      · simp only [List.map_cons, List.flatten_cons, List.append_assoc]
        rw [ih0.1]
        simp
      · intro b hbmem
        rcases List.mem_cons.mp hbmem with hbe | hbm
        · subst hbe; exact ⟨hfull, rfl, rfl⟩
        · exact ih0.2.1 b hbm
    · have hlt : (batch ++ [p]).length < walkBatchSize := by omega
      have ih1 := ih (batch ++ [p]) hlt
      simp only [walkEmit, if_neg hc]
      refine ⟨?_, ih1.2.1, ih1.2.2⟩
      · rw [ih1.1]
        simp

/-- C1: for a walk that runs to completion with no cancellation, the
producer's queue messages are: zero or more full batches of exactly
`walkBatchSize` values, then (when values remain) one final flush of
between 1 and `walkBatchSize` values, then the terminal marker carrying
the walk's overall outcome. The non-terminal batches concatenate, in
delivery order, to exactly the sequence the walk primitive produced. -/
theorem walk_batching (pdus : List SnmpPDU) (walkErr : Option String)
    (sf sd : Bool) (h : pdus ≠ []) :
    (∀ b ∈ (producerSent pdus walkErr none sf sd).dropLast, b.done = false) ∧
    (((producerSent pdus walkErr none sf sd).dropLast.map walkBatch.pdus).flatten
        = pdus) ∧
    (∀ b ∈ (producerSent pdus walkErr none sf sd).dropLast.dropLast,
        b.pdus.length = walkBatchSize) ∧
    (∃ last, (producerSent pdus walkErr none sf sd).dropLast.getLast? = some last ∧
        1 ≤ last.pdus.length ∧ last.pdus.length ≤ walkBatchSize) ∧
    (producerSent pdus walkErr none sf sd).getLast? = some ⟨[], true, walkErr⟩ := by
  have hspec := walkEmit_spec pdus [] (by simp [walkBatchSize])
  set er := walkEmit [] pdus with her
  have hmsgs : producerSent pdus walkErr none sf sd
      = (er.1 ++ (if !er.2.isEmpty then [(⟨er.2, false, none⟩ : walkBatch)] else []))
        ++ [⟨[], true, walkErr⟩] := by
    simp [producerSent, her, List.append_assoc]
  rw [hmsgs, List.dropLast_concat, List.getLast?_concat]
  have hjoin2 : (er.1.map walkBatch.pdus).flatten ++ er.2 = pdus := by
    simpa using hspec.1
  by_cases hrem : er.2.isEmpty = true
  · have hrem' : er.2 = [] := by simpa using hrem
    have hflush : (if (!er.2.isEmpty) = true
        then [(⟨er.2, false, none⟩ : walkBatch)] else []) = [] := by
      simp [hrem']
    rw [hflush, List.append_nil]
    have hjoin : (er.1.map walkBatch.pdus).flatten = pdus := by
      rw [hrem'] at hjoin2
      simpa using hjoin2
    have hne : er.1 ≠ [] := by
      intro hnil
      rw [hnil] at hjoin
      simp at hjoin
      exact h hjoin
    refine ⟨fun b hb => (hspec.2.1 b hb).2.1, hjoin,
      fun b hb => (hspec.2.1 b (List.dropLast_subset _ hb)).1, ?_, rfl⟩
    rcases List.eq_nil_or_concat er.1 with hnil | ⟨L, bl, hconc⟩
    · exact absurd hnil hne
    · rw [hconc, List.concat_eq_append, List.getLast?_concat]
      have hbl := hspec.2.1 bl (by rw [hconc]; simp)
      exact ⟨bl, rfl, by omega, le_of_eq hbl.1⟩
  · have hremF : er.2.isEmpty = false := by
      revert hrem; cases er.2.isEmpty <;> simp
    have hne2 : er.2 ≠ [] := by
      intro hnil; rw [hnil] at hremF; simp at hremF
    have hflush : (if (!er.2.isEmpty) = true
        then [(⟨er.2, false, none⟩ : walkBatch)] else [])
        = [(⟨er.2, false, none⟩ : walkBatch)] := by
      simp [hremF]
    rw [hflush]
    refine ⟨?_, ?_, ?_, ?_, rfl⟩
    · intro b hb
      rcases List.mem_append.mp hb with hbm | hbm
      · exact (hspec.2.1 b hbm).2.1
      · simp at hbm; rw [hbm]
    · rw [List.map_append]
      simp only [List.map_cons, List.map_nil, List.flatten_append, List.flatten_cons,
        List.flatten_nil, List.append_nil]
      exact hjoin2
    · rw [List.dropLast_concat]
      exact fun b hb => (hspec.2.1 b hb).1
    · rw [List.getLast?_concat]
      refine ⟨⟨er.2, false, none⟩, rfl, ?_, le_of_lt hspec.2.2⟩
      exact List.length_pos.mpr hne2

set_option maxRecDepth 40000 in
/-- Witness for `walk_batching` at the spec's 250-value example: batches of
100, 100, 50, then the terminal marker. -/
theorem walk_batching_witness :
    (((producerSent pdus250 none none true true).dropLast.map walkBatch.pdus).flatten
        = pdus250) ∧
    (producerSent pdus250 none none true true).getLast? = some ⟨[], true, none⟩ ∧
    ((producerSent pdus250 none none true true).dropLast.map
        (fun b => b.pdus.length)) = [100, 100, 50] :=
  ⟨(walk_batching pdus250 none true true (by decide)).2.1,
   (walk_batching pdus250 none true true (by decide)).2.2.2.2,
   by decide⟩

theorem consume_decomp (l : List walkBatch) :
    ∃ pre t, consume l = pre ++ [t] ∧ t.done = true ∧ ∀ b ∈ pre, b.done = false := by
  induction l with
  | nil => exact ⟨[], ⟨[], true, none⟩, rfl, rfl, by simp⟩
  | cons b bs ih =>
    by_cases hb : b.done = true
    · exact ⟨[], b, by simp [consume, hb], hb, by simp⟩
    · have hb' : b.done = false := by revert hb; cases b.done <;> simp
      obtain ⟨pre, t, hc, ht, hpre⟩ := ih
      refine ⟨b :: pre, t, ?_, ht, ?_⟩
      · simp [consume, hb', hc]
      · intro x hx
        rcases List.mem_cons.mp hx with hx | hx
        · rw [hx]; exact hb'
        · exact hpre x hx

theorem consume_of_nonterm (l : List walkBatch) (t : walkBatch)
    (hl : ∀ b ∈ l, b.done = false) (ht : t.done = true) :
    consume (l ++ [t]) = l ++ [t] := by
  induction l with
  | nil => simp [consume, ht]
  | cons b bs ih =>
    have hb := hl b (by simp)
    have ih' := ih (fun x hx => hl x (by simp [hx]))
    simp only [List.cons_append, consume, hb]
    simp [ih']

theorem producerSent_cancel_structure (pdus : List SnmpPDU) (walkErr : Option String)
    (k : Nat) (sf : Bool) :
    ∃ pre, producerSent pdus walkErr (some k) sf true
        = pre ++ [⟨[], true, some ctxCanceledErr⟩] ∧
      ∀ b ∈ pre, b.done = false := by
  have hspec := walkEmit_spec (pdus.take k) [] (by simp [walkBatchSize])
  simp only [producerSent, Option.isNone_some, Bool.false_or, Bool.or_true, if_true]
  split
  · refine ⟨(walkEmit [] (pdus.take k)).1
        ++ [⟨(walkEmit [] (pdus.take k)).2, false, none⟩], by simp, ?_⟩
    intro b hb
    rcases List.mem_append.mp hb with hbm | hbm
    · exact (hspec.2.1 b hbm).2.1
    · rw [List.mem_singleton.mp hbm]
  · exact ⟨(walkEmit [] (pdus.take k)).1, by simp,
      fun b hb => (hspec.2.1 b hb).2.1⟩

/-- C2 (amended): for every walk execution — completed, failed, or
cancelled at any point, with any outcome of the producer's final
cancellation-raced sends — the consumer observes exactly one terminal
(done) message, it is the last message observed, and every message before
it is a batch (so no batch is delivered after the first terminal). When
the walk was cancelled *and* the producer's terminal send was the case the
runtime selected, the observed terminal carries the cancellation error;
when cancellation made the runtime skip that send, the consumer still
observes a terminal — synthesised from the closed channel — but it
carries no error. -/
theorem walk_terminal_always (pdus : List SnmpPDU) (walkErr : Option String)
    (cancel : Option Nat) (sf sd : Bool) :
    (∃ pre t, consume (producerSent pdus walkErr cancel sf sd) = pre ++ [t] ∧
      t.done = true ∧ ∀ b ∈ pre, b.done = false) ∧
    (∀ k, cancel = some k → sd = true →
      (consume (producerSent pdus walkErr cancel sf sd)).getLast?
        = some ⟨[], true, some ctxCanceledErr⟩) := by
  refine ⟨consume_decomp _, ?_⟩
  intro k hk hsd
  subst hk hsd
  obtain ⟨pre, heq, hpre⟩ := producerSent_cancel_structure pdus walkErr k sf
  rw [heq, consume_of_nonterm pre _ hpre rfl, List.getLast?_concat]

/-- Witness for `walk_terminal_always`: cancelling a 120-value walk after
110 values with the terminal send selected delivers the cancellation
terminal last. -/
theorem walk_terminal_always_witness :
    (consume (producerSent pdus120 none (some 110) false true)).getLast?
      = some ⟨[], true, some ctxCanceledErr⟩ :=
  (walk_terminal_always pdus120 none (some 110) false true).2 110 rfl rfl

set_option maxRecDepth 40000 in
/-- Counterexample to C2 as stated: cancel a 120-value walk after 110
values (the first full batch of 100 was already delivered and consumed),
with the Go runtime selecting the `ctx.Done()` case at both of the
producer's final sends. The producer then closes the channel without the
terminal marker; the consumer observes the first batch and then a
synthesised terminal that carries *no* error — not the cancellation
condition the claim promises. -/
theorem walk_cancel_condition_counterexample :
    consume (producerSent pdus120 none (some 110) false false)
      = [⟨pdus120.take 100, false, none⟩, ⟨[], true, none⟩] ∧
    ((⟨[], true, none⟩ : walkBatch).err = some ctxCanceledErr → False) := by
  constructor
  · decide
  · intro hcontra
    cases hcontra

theorem lookupRow_mem {m : List (String × tableRowData)} {k : String}
    {rd : tableRowData} (h : lookupRow m k = some rd) : (k, rd) ∈ m := by
  induction m with
  | nil => cases h
  | cons p rest ih =>
    rcases p with ⟨k0, v0⟩
    by_cases hk : k0 = k
    · subst hk
      simp only [lookupRow, if_pos rfl] at h
      cases h
      exact List.mem_cons_self _ _
    · simp only [lookupRow, if_neg hk] at h
      exact List.mem_cons_of_mem _ (ih h)

theorem lookupRow_setRow_self {m : List (String × tableRowData)} {k : String}
    (v : tableRowData) (h : (lookupRow m k).isSome = true) :
    lookupRow (setRow m k v) k = some v := by
  induction m with
  | nil => simp [lookupRow] at h
  | cons p rest ih =>
    rcases p with ⟨k0, v0⟩
    by_cases hk : k0 = k
    · simp [setRow, lookupRow, hk]
    · have h' : (lookupRow rest k).isSome = true := by
        simpa [lookupRow, hk] using h
      simpa [setRow, lookupRow, hk] using ih h'

theorem lookupRow_setRow_ne {m : List (String × tableRowData)} {k k' : String}
    (v : tableRowData) (h : k' ≠ k) :
    lookupRow (setRow m k v) k' = lookupRow m k' := by
  induction m with
  | nil => simp [setRow]
  | cons p rest ih =>
    rcases p with ⟨k0, v0⟩
    by_cases hk : k0 = k
    · subst hk
      simp [setRow, lookupRow, Ne.symm h]
    · by_cases hk' : k0 = k' <;> simp [setRow, lookupRow, hk, hk', h, ih]

theorem lookupRow_append_self {m : List (String × tableRowData)} {k : String}
    (rd : tableRowData) (h : lookupRow m k = none) :
    lookupRow (m ++ [(k, rd)]) k = some rd := by
  induction m with
  | nil => simp [lookupRow]
  | cons p rest ih =>
    rcases p with ⟨k0, v0⟩
    by_cases hk : k0 = k
    · simp [lookupRow, hk] at h
    · have h' : lookupRow rest k = none := by
        simpa [lookupRow, hk] using h
      simpa [lookupRow, hk] using ih h'

theorem lookupRow_append_ne {m : List (String × tableRowData)} {k k' : String}
    (rd : tableRowData) (h : k' ≠ k) :
    lookupRow (m ++ [(k, rd)]) k' = lookupRow m k' := by
  induction m with
  | nil => simp [lookupRow, Ne.symm h]
  | cons p rest ih =>
    rcases p with ⟨k0, v0⟩
    by_cases hk' : k0 = k' <;> simp [lookupRow, hk', ih]

/-- C6: when a walked value's identifier parses and resolves by
longest-prefix match to one of the schema's columns, `handlePDU` keys the
row by the identifier suffix beyond the matched node's identifier (an
empty suffix normalised to `"0"`), appends the key to the first-seen row
order only when the key is new, and stores the formatted value at that row
in the owning column's position — with all other cells of a freshly
created row left empty. -/
theorem collector_routes_value (mb : Mib) (fmt : SnmpPDU → MibNode → String)
    (c : tableWalkCollector) (pdu : SnmpPDU) (oid : List Nat) (node : MibNode)
    (ci : tableColInfo)
    (hp : mb.parseOID pdu.name = some oid)
    (hl : mb.longestPrefixByOID oid = some node)
    (hc : lookupColInfo c.schema.colMap node.oid = some ci)
    (hidx : ci.idx < c.schema.colList.length)
    (hrows : ∀ p ∈ c.rowMap, p.2.cells.length = c.schema.colList.length) :
    (handlePDU mb fmt c pdu).2 = none ∧
    (handlePDU mb fmt c pdu).1.rowOrder
      = (if (lookupRow c.rowMap
            (if oidToString (oid.drop node.oid.length) = "" then "0"
             else oidToString (oid.drop node.oid.length))).isSome
         then c.rowOrder
         else c.rowOrder
            ++ [if oidToString (oid.drop node.oid.length) = "" then "0"
                else oidToString (oid.drop node.oid.length)]) ∧
    ∃ rd, lookupRow (handlePDU mb fmt c pdu).1.rowMap
            (if oidToString (oid.drop node.oid.length) = "" then "0"
             else oidToString (oid.drop node.oid.length)) = some rd ∧
      rd.cells.length = c.schema.colList.length ∧
      rd.cells[ci.idx]? = some (fmt pdu node) ∧
      (lookupRow c.rowMap
          (if oidToString (oid.drop node.oid.length) = "" then "0"
           else oidToString (oid.drop node.oid.length)) = none →
        ∀ j, j < c.schema.colList.length → j ≠ ci.idx → rd.cells[j]? = some "") := by
  have hred : handlePDU mb fmt c pdu
      = (let suffixStr := if oidToString (oid.drop node.oid.length) = "" then "0"
            else oidToString (oid.drop node.oid.length)
         let next :=
           match lookupRow c.rowMap suffixStr with
           | some rd => (c.rowMap, c.rowOrder, rd)
           | none =>
             let rd : tableRowData := ⟨suffixStr, List.replicate c.schema.colList.length ""⟩
             (c.rowMap ++ [(suffixStr, rd)], c.rowOrder ++ [suffixStr], rd)
         let rd := next.2.2
         let rd' : tableRowData := ⟨rd.suffix, rd.cells.set ci.idx (fmt pdu node)⟩
         (⟨c.schema, setRow next.1 suffixStr rd', next.2.1⟩, none)) := by
    simp [handlePDU, hp, hl, hc]
  rcases hrow : lookupRow c.rowMap
      (if oidToString (oid.drop node.oid.length) = "" then "0"
       else oidToString (oid.drop node.oid.length)) with _ | rd0
  · refine ⟨by simp [hred], by simp [hred, hrow], ?_⟩
    refine ⟨⟨(if oidToString (oid.drop node.oid.length) = "" then "0"
        else oidToString (oid.drop node.oid.length)),
        (List.replicate c.schema.colList.length "").set ci.idx (fmt pdu node)⟩, ?_, ?_, ?_, ?_⟩
    · simp only [hred, hrow]
      exact lookupRow_setRow_self _
        (by rw [lookupRow_append_self _ hrow]; rfl)
    · simp
    · simp only []
      rw [List.getElem?_set]
      simp [hidx]
    · intro _ j hj hne
      simp only []
      rw [List.getElem?_set]
      simp [Ne.symm hne, List.getElem?_replicate, hj]
  · have hmem := lookupRow_mem hrow
    have hlen := hrows _ hmem
    refine ⟨by simp [hred], by simp [hred, hrow], ?_⟩
    refine ⟨⟨rd0.suffix, rd0.cells.set ci.idx (fmt pdu node)⟩, ?_, ?_, ?_, ?_⟩
    · simp only [hred, hrow]
      exact lookupRow_setRow_self _ (by rw [hrow]; rfl)
    · simpa using hlen
    · simp only []
      rw [List.getElem?_set]
      simp only at hlen
      simp [hidx, hlen]
    · intro hcontra
      exact Option.noConfusion hcontra

/-- Witness for `collector_routes_value`: the value at `1.3.1.1.5` lands in
row `"5"`, column 0, with the second cell left empty. -/
theorem collector_routes_value_witness :
    (handlePDU mibStub fmtStub collectorStub pduStub).2 = none ∧
    (handlePDU mibStub fmtStub collectorStub pduStub).1.rowOrder = ["5"] ∧
    lookupRow (handlePDU mibStub fmtStub collectorStub pduStub).1.rowMap "5"
      = some ⟨"5", ["v", ""]⟩ := by
  have h := collector_routes_value mibStub fmtStub collectorStub pduStub
      [1, 3, 1, 1, 5] ⟨"col1", [1, 3, 1, 1], []⟩ ⟨"col1", [1, 3, 1, 1], 0⟩
      (by decide) (by decide) (by decide) (by decide) (by decide)
  exact ⟨h.1, by decide, by decide⟩

theorem mem_setRow {m : List (String × tableRowData)} {k : String} {v : tableRowData}
    {q : String × tableRowData} (h : q ∈ setRow m k v) : q = (k, v) ∨ q ∈ m := by
  induction m with
  | nil => simp [setRow] at h
  | cons p rest ih =>
    rcases p with ⟨k0, v0⟩
    by_cases hk : k0 = k
    · simp only [setRow, if_pos hk, List.mem_cons] at h
      rcases h with h | h
      · left; exact h
      · right; exact List.mem_cons_of_mem _ h
    · simp only [setRow, if_neg hk, List.mem_cons] at h
      rcases h with h | h
      · right; rw [h]; exact List.mem_cons_self _ _
      · rcases ih h with h' | h'
        · left; exact h'
        · right; exact List.mem_cons_of_mem _ h'

theorem handlePDU_found (mb : Mib) (fmt : SnmpPDU → MibNode → String)
    (c : tableWalkCollector) (p : SnmpPDU) (oid : List Nat) (node : MibNode)
    (ci : tableColInfo) (key : String) (rd0 : tableRowData)
    (hp : mb.parseOID p.name = some oid)
    (hl : mb.longestPrefixByOID oid = some node)
    (hc : lookupColInfo c.schema.colMap node.oid = some ci)
    (hkey : key = if oidToString (oid.drop node.oid.length) = "" then "0"
        else oidToString (oid.drop node.oid.length))
    (hrow : lookupRow c.rowMap key = some rd0) :
    handlePDU mb fmt c p
      = (⟨c.schema,
          setRow c.rowMap key ⟨rd0.suffix, rd0.cells.set ci.idx (fmt p node)⟩,
          c.rowOrder⟩, none) := by
  subst hkey
  simp [handlePDU, hp, hl, hc, hrow]

theorem handlePDU_fresh (mb : Mib) (fmt : SnmpPDU → MibNode → String)
    (c : tableWalkCollector) (p : SnmpPDU) (oid : List Nat) (node : MibNode)
    (ci : tableColInfo) (key : String)
    (hp : mb.parseOID p.name = some oid)
    (hl : mb.longestPrefixByOID oid = some node)
    (hc : lookupColInfo c.schema.colMap node.oid = some ci)
    (hkey : key = if oidToString (oid.drop node.oid.length) = "" then "0"
        else oidToString (oid.drop node.oid.length))
    (hrow : lookupRow c.rowMap key = none) :
    handlePDU mb fmt c p
      = (⟨c.schema,
          setRow (c.rowMap ++ [(key, ⟨key, List.replicate c.schema.colList.length ""⟩)])
            key ⟨key, (List.replicate c.schema.colList.length "").set ci.idx (fmt p node)⟩,
          c.rowOrder ++ [key]⟩, none) := by
  subst hkey
  simp [handlePDU, hp, hl, hc, hrow]

theorem handlePDU_schema (mb : Mib) (fmt : SnmpPDU → MibNode → String)
    (c : tableWalkCollector) (p : SnmpPDU) :
    (handlePDU mb fmt c p).1.schema = c.schema := by
  rcases hp : mb.parseOID p.name with _ | oid
  · simp [handlePDU, hp]
  rcases hl : mb.longestPrefixByOID oid with _ | node
  · simp [handlePDU, hp, hl]
  rcases hc : lookupColInfo c.schema.colMap node.oid with _ | ci
  · simp [handlePDU, hp, hl, hc]
  rcases hrow : lookupRow c.rowMap
      (if oidToString (oid.drop node.oid.length) = "" then "0"
       else oidToString (oid.drop node.oid.length)) with _ | rd0
  · rw [handlePDU_fresh mb fmt c p oid node ci _ hp hl hc rfl hrow]
  · rw [handlePDU_found mb fmt c p oid node ci _ rd0 hp hl hc rfl hrow]

theorem handlePDU_rowsWF (mb : Mib) (fmt : SnmpPDU → MibNode → String)
    (c : tableWalkCollector) (p : SnmpPDU) (h : rowsWF c) :
    rowsWF (handlePDU mb fmt c p).1 := by
  rcases hp : mb.parseOID p.name with _ | oid
  · simpa [handlePDU, hp] using h
  rcases hl : mb.longestPrefixByOID oid with _ | node
  · simpa [handlePDU, hp, hl] using h
  rcases hc : lookupColInfo c.schema.colMap node.oid with _ | ci
  · simpa [handlePDU, hp, hl, hc] using h
  rcases hrow : lookupRow c.rowMap
      (if oidToString (oid.drop node.oid.length) = "" then "0"
       else oidToString (oid.drop node.oid.length)) with _ | rd0
  · rw [handlePDU_fresh mb fmt c p oid node ci _ hp hl hc rfl hrow]
    intro q hq
    rcases mem_setRow hq with hq' | hq'
    · rw [hq']
      simp
    · rcases List.mem_append.mp hq' with hq'' | hq''
      · exact h q hq''
      · rw [List.mem_singleton.mp hq'']
        simp
  · rw [handlePDU_found mb fmt c p oid node ci _ rd0 hp hl hc rfl hrow]
    intro q hq
    rcases mem_setRow hq with hq' | hq'
    · rw [hq']
      have := h _ (lookupRow_mem hrow)
      simpa using this
    · exact h q hq'

theorem handlePDU_rowsKeyed (mb : Mib) (fmt : SnmpPDU → MibNode → String)
    (c : tableWalkCollector) (p : SnmpPDU) (h : rowsKeyed c) :
    rowsKeyed (handlePDU mb fmt c p).1 := by
  rcases hp : mb.parseOID p.name with _ | oid
  · simpa [handlePDU, hp] using h
  rcases hl : mb.longestPrefixByOID oid with _ | node
  · simpa [handlePDU, hp, hl] using h
  rcases hc : lookupColInfo c.schema.colMap node.oid with _ | ci
  · simpa [handlePDU, hp, hl, hc] using h
  rcases hrow : lookupRow c.rowMap
      (if oidToString (oid.drop node.oid.length) = "" then "0"
       else oidToString (oid.drop node.oid.length)) with _ | rd0
  · rw [handlePDU_fresh mb fmt c p oid node ci _ hp hl hc rfl hrow]
    intro k hk
    by_cases hke : k = (if oidToString (oid.drop node.oid.length) = "" then "0"
        else oidToString (oid.drop node.oid.length))
    · subst hke
      rw [lookupRow_setRow_self _ (by rw [lookupRow_append_self _ hrow]; rfl)]
      rfl
    · rcases List.mem_append.mp hk with hk' | hk'
      · rw [lookupRow_setRow_ne _ hke, lookupRow_append_ne _ hke]
        exact h k hk'
      · exact absurd (List.mem_singleton.mp hk') hke
  · rw [handlePDU_found mb fmt c p oid node ci _ rd0 hp hl hc rfl hrow]
    intro k hk
    by_cases hke : k = (if oidToString (oid.drop node.oid.length) = "" then "0"
        else oidToString (oid.drop node.oid.length))
    · subst hke
      rw [lookupRow_setRow_self _ (by rw [hrow]; rfl)]
      rfl
    · rw [lookupRow_setRow_ne _ hke]
      exact h k hk

theorem handlePDU_cell_unchanged (mb : Mib) (fmt : SnmpPDU → MibNode → String)
    (c : tableWalkCollector) (p : SnmpPDU) (k : String) (i : Nat)
    (hw : ¬ pduWrite mb c.schema p = some (k, i)) :
    cellValue (handlePDU mb fmt c p).1 k i = cellValue c k i := by
  rcases hp : mb.parseOID p.name with _ | oid
  · simp [handlePDU, hp]
  rcases hl : mb.longestPrefixByOID oid with _ | node
  · simp [handlePDU, hp, hl]
  rcases hc : lookupColInfo c.schema.colMap node.oid with _ | ci
  · simp [handlePDU, hp, hl, hc]
  have hwrite : pduWrite mb c.schema p
      = some (if oidToString (oid.drop node.oid.length) = "" then "0"
          else oidToString (oid.drop node.oid.length), ci.idx) := by
    simp [pduWrite, hp, hl, hc]
  rcases hrow : lookupRow c.rowMap
      (if oidToString (oid.drop node.oid.length) = "" then "0"
       else oidToString (oid.drop node.oid.length)) with _ | rd0
  · rw [handlePDU_fresh mb fmt c p oid node ci _ hp hl hc rfl hrow]
    by_cases hke : k = (if oidToString (oid.drop node.oid.length) = "" then "0"
        else oidToString (oid.drop node.oid.length))
    · have hii : ¬ i = ci.idx := by
        intro hi
        apply hw
        rw [hwrite, hke, hi]
      subst hke
      unfold cellValue
      rw [lookupRow_setRow_self _ (by rw [lookupRow_append_self _ hrow]; rfl), hrow]
      simp only [List.getD, List.get?_eq_getElem?]
      rw [List.getElem?_set]
      simp only [Ne.symm hii, List.getElem?_replicate, if_false]
      split <;> rfl
    · unfold cellValue
      rw [lookupRow_setRow_ne _ hke, lookupRow_append_ne _ hke]
  · rw [handlePDU_found mb fmt c p oid node ci _ rd0 hp hl hc rfl hrow]
    by_cases hke : k = (if oidToString (oid.drop node.oid.length) = "" then "0"
        else oidToString (oid.drop node.oid.length))
    · have hii : ¬ i = ci.idx := by
        intro hi
        apply hw
        rw [hwrite, hke, hi]
      subst hke
      unfold cellValue
      rw [lookupRow_setRow_self _ (by rw [hrow]; rfl), hrow]
      simp only [List.getD, List.get?_eq_getElem?]
      rw [List.getElem?_set]
      simp [Ne.symm hii]
    · unfold cellValue
      rw [lookupRow_setRow_ne _ hke]

theorem runCollector_schema (mb : Mib) (fmt : SnmpPDU → MibNode → String)
    (pdus : List SnmpPDU) :
    ∀ c : tableWalkCollector, (runCollector mb fmt c pdus).schema = c.schema := by
  induction pdus with
  | nil => intro c; rfl
  | cons p ps ih =>
    intro c
    rw [runCollector, List.foldl_cons, ← runCollector, ih, handlePDU_schema]

theorem runCollector_rowsWF (mb : Mib) (fmt : SnmpPDU → MibNode → String)
    (pdus : List SnmpPDU) :
    ∀ c : tableWalkCollector, rowsWF c → rowsWF (runCollector mb fmt c pdus) := by
  induction pdus with
  | nil => intro c h; exact h
  | cons p ps ih =>
    intro c h
    rw [runCollector, List.foldl_cons, ← runCollector]
    exact ih _ (handlePDU_rowsWF mb fmt c p h)

theorem runCollector_rowsKeyed (mb : Mib) (fmt : SnmpPDU → MibNode → String)
    (pdus : List SnmpPDU) :
    ∀ c : tableWalkCollector, rowsKeyed c → rowsKeyed (runCollector mb fmt c pdus) := by
  induction pdus with
  | nil => intro c h; exact h
  | cons p ps ih =>
    intro c h
    rw [runCollector, List.foldl_cons, ← runCollector]
    exact ih _ (handlePDU_rowsKeyed mb fmt c p h)

theorem runCollector_cell_unchanged (mb : Mib) (fmt : SnmpPDU → MibNode → String)
    (pdus : List SnmpPDU) :
    ∀ (c : tableWalkCollector) (k : String) (i : Nat),
      (k, i) ∉ collectorWrites mb c.schema pdus →
      cellValue (runCollector mb fmt c pdus) k i = cellValue c k i := by
  induction pdus with
  | nil => intro c k i _; rfl
  | cons p ps ih =>
    intro c k i h
    rw [runCollector, List.foldl_cons, ← runCollector]
    rcases hw : pduWrite mb c.schema p with _ | w
    · have h' : (k, i) ∉ collectorWrites mb c.schema ps := by
        intro hmem
        exact h (by simpa [collectorWrites, List.filterMap_cons, hw] using hmem)
      have hstep := handlePDU_cell_unchanged mb fmt c p k i (by rw [hw]; intro hx; cases hx)
      have hrec := ih (handlePDU mb fmt c p).1 k i
        (by rw [handlePDU_schema]; exact h')
      rw [hrec, hstep]
    · have hne : ¬ w = (k, i) := by
        intro hx
        exact h (by simp [collectorWrites, List.filterMap_cons, hw, hx])
      have h' : (k, i) ∉ collectorWrites mb c.schema ps := by
        intro hmem
        refine h ?_
        simp only [collectorWrites, List.filterMap_cons, hw] at hmem ⊢
        exact List.mem_cons_of_mem _ hmem
      have hstep := handlePDU_cell_unchanged mb fmt c p k i
        (by rw [hw]; intro hx; exact hne (Option.some_injective _ hx))
      have hrec := ih (handlePDU mb fmt c p).1 k i
        (by rw [handlePDU_schema]; exact h')
      rw [hrec, hstep]

/-- C7: after a full table walk from a fresh collector, every produced row
has exactly one cell per schema column, and every cell whose position was
never written during the walk shows the `"-"` placeholder in the produced
row. -/
theorem table_rows_rectangular (mb : Mib) (fmt : SnmpPDU → MibNode → String)
    (schema : tableSchema) (pdus : List SnmpPDU) :
    (∀ r ∈ buildTableRows (runCollector mb fmt (newTableWalkCollector schema) pdus),
      r.length = schema.colList.length) ∧
    (∀ k ∈ (runCollector mb fmt (newTableWalkCollector schema) pdus).rowOrder,
      ∃ rd, lookupRow (runCollector mb fmt (newTableWalkCollector schema) pdus).rowMap k
          = some rd ∧
        rd.cells.map (fun s => if s = "" then "-" else s)
          ∈ buildTableRows (runCollector mb fmt (newTableWalkCollector schema) pdus) ∧
        ∀ i, i < schema.colList.length →
          (k, i) ∉ collectorWrites mb schema pdus →
          (rd.cells.map (fun s => if s = "" then "-" else s)).getD i "-" = "-") := by
  set c := runCollector mb fmt (newTableWalkCollector schema) pdus with hc
  have hschema : c.schema = schema := runCollector_schema mb fmt pdus _
  have hwf : rowsWF c := runCollector_rowsWF mb fmt pdus _ (by intro q hq; cases hq)
  have hkeyed : rowsKeyed c := runCollector_rowsKeyed mb fmt pdus _ (by intro k hk; cases hk)
  constructor
  · intro r hr
    unfold buildTableRows at hr
    by_cases he : c.rowOrder.isEmpty
    · rw [if_pos he] at hr
      cases hr
    · rw [if_neg he] at hr
      obtain ⟨k, hk, hfk⟩ := List.mem_map.mp hr
      have hsome := hkeyed k hk
      rcases hrd : lookupRow c.rowMap k with _ | rd
      · rw [hrd] at hsome; cases hsome
      · rw [hrd] at hfk
        have hlen := hwf _ (lookupRow_mem hrd)
        rw [← hfk]
        simpa [hschema] using hlen
  · intro k hk
    have hsome := hkeyed k hk
    rcases hrd : lookupRow c.rowMap k with _ | rd
    · rw [hrd] at hsome; cases hsome
    refine ⟨rd, rfl, ?_, ?_⟩
    · unfold buildTableRows
      have hne : ¬ c.rowOrder.isEmpty = true := by
        intro hx
        rw [List.isEmpty_iff.mp hx] at hk
        cases hk
      rw [if_neg hne]
      refine List.mem_map.mpr ⟨k, hk, ?_⟩
      rw [hrd]
    · intro i hi hiw
      have hcell : cellValue c k i = "" := by
        rw [hc]
        rw [runCollector_cell_unchanged mb fmt pdus _ k i (by simpa using hiw)]
        rfl
      have hcell' : rd.cells.getD i "" = "" := by
        unfold cellValue at hcell
        rw [hrd] at hcell
        exact hcell
      have hlen := hwf _ (lookupRow_mem hrd)
      have hilen : i < rd.cells.length := by
        simp only at hlen
        rw [hlen, hschema]
        exact hi
      have hgot : rd.cells[i]? = some "" := by
        rw [List.getD, List.get?_eq_getElem?] at hcell'
        rcases hx : rd.cells[i]? with _ | v
        · rw [List.getElem?_eq_none_iff] at hx
          omega
        · rw [hx] at hcell'
          simp at hcell'
          rw [hcell']
      rw [List.getD, List.get?_eq_getElem?, List.getElem?_map, hgot]
      rfl

/-- Witness for `table_rows_rectangular`: one value in a two-column table
leaves the produced row `["v", "-"]` — the unwritten second cell shows the
placeholder. -/
theorem table_rows_rectangular_witness :
    ((["v", ""] : List String).map (fun s => if s = "" then "-" else s)).getD 1 "-"
      = "-" ∧
    buildTableRows collectorRun1 = [["v", "-"]] := by
  have h := table_rows_rectangular mibStub fmtStub schemaStub [pduStub]
  obtain ⟨rd, hrd, _, hcells⟩ := h.2 "5" (by decide)
  have hrd' : lookupRow collectorRun1.rowMap "5" = some rd := hrd
  have hl : lookupRow collectorRun1.rowMap "5" = some ⟨"5", ["v", ""]⟩ := by decide
  rw [hl] at hrd'
  have hrdeq : rd = ⟨"5", ["v", ""]⟩ := (Option.some_injective _ hrd').symm
  constructor
  · have hcell := hcells 1 (by decide) (by decide)
    rw [hrdeq] at hcell
    exact hcell
  · decide

/-- The ordered-pair relation behind branch-name uniqueness: a later child
sharing an earlier child's name must be childless (only the first child
with a given name — the one `findChild` returns — ever gains children). -/
def BranchRel (a b : resultTreeNode) : Prop :=
  a.name = b.name → b.children = []

/-- The tree invariant maintained by every insertion: at every node, the
children satisfy `BranchRel` pairwise, recursively. -/
inductive NodeOK : resultTreeNode → Prop where
  | mk {n : String} {o : Option (List Nat)} {mn : Option MibRef}
      {r : Option snmpResult} {cs : List resultTreeNode} {e : Bool} {d : Nat} :
      List.Pairwise BranchRel cs → (∀ c ∈ cs, NodeOK c) →
      NodeOK (.mk n o mn r cs e d)

theorem NodeOK.pairwise {t : resultTreeNode} (h : NodeOK t) :
    List.Pairwise BranchRel t.children := by
  cases h; assumption

theorem NodeOK.children_ok {t : resultTreeNode} (h : NodeOK t) :
    ∀ c ∈ t.children, NodeOK c := by
  cases h; assumption

theorem name_withChildren (t : resultTreeNode) (cs : List resultTreeNode) :
    (t.withChildren cs).name = t.name := by
  cases t; rfl

theorem nodeOK_withChildren {t : resultTreeNode} {cs : List resultTreeNode}
    (hp : List.Pairwise BranchRel cs) (hok : ∀ c ∈ cs, NodeOK c) :
    NodeOK (t.withChildren cs) := by
  cases t; exact NodeOK.mk hp hok

theorem nodeOK_childless (n : String) (o : Option (List Nat)) (mn : Option MibRef)
    (r : Option snmpResult) (e : Bool) (d : Nat) :
    NodeOK (.mk n o mn r [] e d) :=
  NodeOK.mk List.Pairwise.nil (by intro c hc; cases hc)

theorem upsertChild_mem {nm : String} {fresh : resultTreeNode}
    {f : resultTreeNode → resultTreeNode} {cs : List resultTreeNode}
    {b : resultTreeNode} (h : b ∈ upsertChild nm fresh f cs) :
    b ∈ cs ∨ (∃ c, c ∈ cs ∧ c.name = nm ∧ b = f c) ∨ b = f fresh := by
  induction cs with
  | nil =>
    right; right
    simpa [upsertChild] using h
  | cons c rest ih =>
    by_cases hc : c.name = nm
    · simp only [upsertChild, if_pos hc, List.mem_cons] at h
      rcases h with h | h
      · right; left; exact ⟨c, List.mem_cons_self _ _, hc, h⟩
      · left; exact List.mem_cons_of_mem _ h
    · simp only [upsertChild, if_neg hc, List.mem_cons] at h
      rcases h with h | h
      · left; rw [h]; exact List.mem_cons_self _ _
      · rcases ih h with h' | ⟨c', hc', hcn, hbe⟩ | h'
        · left; exact List.mem_cons_of_mem _ h'
        · right; left; exact ⟨c', List.mem_cons_of_mem _ hc', hcn, hbe⟩
        · right; right; exact h'

theorem pairwise_upsertChild {nm : String} {fresh : resultTreeNode}
    {f : resultTreeNode → resultTreeNode} {cs : List resultTreeNode}
    (hfname : ∀ t, (f t).name = t.name) (hfresh : fresh.name = nm)
    (hp : List.Pairwise BranchRel cs) :
    List.Pairwise BranchRel (upsertChild nm fresh f cs) := by
  induction cs with
  | nil => simp [upsertChild]
  | cons c rest ih =>
    rcases List.pairwise_cons.mp hp with ⟨hhead, htail⟩
    by_cases hc : c.name = nm
    · simp only [upsertChild, if_pos hc]
      refine List.pairwise_cons.mpr ⟨?_, htail⟩
      intro b hb hname
      exact hhead b hb ((hfname c).symm.trans hname)
    · simp only [upsertChild, if_neg hc]
      refine List.pairwise_cons.mpr ⟨?_, ih htail⟩
      intro b hb hname
      rcases upsertChild_mem hb with hbm | ⟨c', hc', hcn, hbe⟩ | hbe
      · exact hhead b hbm hname
      · exfalso
        apply hc
        rw [hname, hbe, hfname c', hcn]
      · exfalso
        apply hc
        rw [hname, hbe, hfname fresh, hfresh]

theorem upsertChild_ok {nm : String} {fresh : resultTreeNode}
    {f : resultTreeNode → resultTreeNode} {cs : List resultTreeNode}
    (hf : ∀ t, NodeOK t → NodeOK (f t)) (hfreshOk : NodeOK fresh)
    (hok : ∀ c ∈ cs, NodeOK c) :
    ∀ b ∈ upsertChild nm fresh f cs, NodeOK b := by
  intro b hb
  rcases upsertChild_mem hb with hbm | ⟨c', hc', _, hbe⟩ | hbe
  · exact hok b hbm
  · rw [hbe]; exact hf _ (hok _ hc')
  · rw [hbe]; exact hf _ hfreshOk

theorem nodeOK_append_childless {t : resultTreeNode} (h : NodeOK t)
    (leaf : resultTreeNode) (hleaf : leaf.children = []) (hleafOk : NodeOK leaf) :
    NodeOK (t.withChildren (t.children ++ [leaf])) := by
  refine nodeOK_withChildren ?_ ?_
  · rw [List.pairwise_append]
    refine ⟨h.pairwise, List.pairwise_singleton _ _, ?_⟩
    intro a _ b hb
    rw [List.mem_singleton.mp hb]
    intro _
    exact hleaf
  · intro c hc
    rcases List.mem_append.mp hc with hc' | hc'
    · exact h.children_ok c hc'
    · rw [List.mem_singleton.mp hc']
      exact hleafOk

theorem attachResult_name (node : MibNode) (oid : List Nat) (res : snmpResult)
    (cur : resultTreeNode) : (attachResult node oid res cur).name = cur.name := by
  by_cases hs : 0 < (oid.drop node.oid.length).length
  · simp only [attachResult, if_pos hs, name_withChildren]
  · simp only [attachResult, if_neg hs, name_withChildren]

theorem attachResult_ok (node : MibNode) (oid : List Nat) (res : snmpResult)
    {cur : resultTreeNode} (h : NodeOK cur) :
    NodeOK (attachResult node oid res cur) := by
  by_cases hs : 0 < (oid.drop node.oid.length).length
  · simp only [attachResult, if_pos hs]
    refine nodeOK_withChildren ?_ ?_
    · refine pairwise_upsertChild ?_ rfl h.pairwise
      intro t
      rw [name_withChildren]
    · refine upsertChild_ok ?_ (nodeOK_childless _ _ _ _ _ _) h.children_ok
      intro t ht
      exact nodeOK_append_childless ht _ rfl (nodeOK_childless _ _ _ _ _ _)
  · simp only [attachResult, if_neg hs]
    exact nodeOK_append_childless h _ rfl (nodeOK_childless _ _ _ _ _ _)

theorem insertAtPath_name (attach : resultTreeNode → resultTreeNode)
    (hattach : ∀ t, (attach t).name = t.name) :
    ∀ (path : List MibRef) (cur : resultTreeNode),
      (insertAtPath attach path cur).name = cur.name := by
  intro path
  induction path with
  | nil => intro cur; exact hattach cur
  | cons gn rest _ =>
    intro cur
    rw [insertAtPath, name_withChildren]

theorem insertAtPath_ok (attach : resultTreeNode → resultTreeNode)
    (hname : ∀ t, (attach t).name = t.name)
    (hok : ∀ t, NodeOK t → NodeOK (attach t)) :
    ∀ (path : List MibRef) (cur : resultTreeNode),
      NodeOK cur → NodeOK (insertAtPath attach path cur) := by
  intro path
  induction path with
  | nil => intro cur h; exact hok cur h
  | cons gn rest ih =>
    intro cur h
    rw [insertAtPath]
    refine nodeOK_withChildren ?_ ?_
    · refine pairwise_upsertChild ?_ rfl h.pairwise
      intro t
      exact insertAtPath_name attach hname rest t
    · exact upsertChild_ok ih (nodeOK_childless _ _ _ _ _ _) h.children_ok

theorem insertResultIntoTree_ok (mb : Mib) (walkRoot : Option (List Nat))
    {root : resultTreeNode} (h : NodeOK root) (res : snmpResult) :
    NodeOK (insertResultIntoTree mb walkRoot root res) := by
  rcases hp : mb.parseOID res.oid with _ | oid
  · simp only [insertResultIntoTree, hp]
    exact nodeOK_append_childless h
      (.mk res.name none none (some res) [] false 1) rfl
      (nodeOK_childless _ _ _ _ _ _)
  rcases hl : mb.longestPrefixByOID oid with _ | node
  · simp only [insertResultIntoTree, hp, hl]
    exact nodeOK_append_childless h
      (.mk res.name (some oid) none (some res) [] false 1) rfl
      (nodeOK_childless _ _ _ _ _ _)
  · simp only [insertResultIntoTree, hp, hl]
    exact insertAtPath_ok (attachResult node oid res)
      (attachResult_name node oid res)
      (fun t ht => attachResult_ok node oid res ht)
      (buildGroupPath node walkRoot) root h

theorem buildResultTree_ok (mb : Mib) (results : List snmpResult)
    (walkRoot : Option (List Nat)) :
    NodeOK (buildResultTree mb results walkRoot) := by
  suffices hgen : ∀ t : resultTreeNode, NodeOK t →
      NodeOK (results.foldl (insertResultIntoTree mb walkRoot) t) by
    exact hgen _ (nodeOK_childless _ _ _ _ _ _)
  induction results with
  | nil => intro t h; exact h
  | cons r rs ih =>
    intro t h
    rw [List.foldl_cons]
    exact ih _ (insertResultIntoTree_ok mb walkRoot h r)

theorem allDistinct_of_pairwise {cs : List resultTreeNode}
    (hp : List.Pairwise BranchRel cs) :
    allDistinct (branchNames cs) = true := by
  induction cs with
  | nil => rfl
  | cons c rest ih =>
    rcases List.pairwise_cons.mp hp with ⟨hhead, htail⟩
    by_cases hc : c.children.isEmpty
    · have hb : branchNames (c :: rest) = branchNames rest := by
        simp [branchNames, List.filter_cons, hc]
      rw [hb]
      exact ih htail
    · have hb : branchNames (c :: rest) = c.name :: branchNames rest := by
        simp [branchNames, List.filter_cons, hc]
      rw [hb, allDistinct, Bool.and_eq_true]
      refine ⟨?_, ih htail⟩
      rw [Bool.not_eq_true', decide_eq_false_iff_not]
      intro hmem
      obtain ⟨b, hbf, hbn⟩ := List.mem_map.mp hmem
      obtain ⟨hbm, hbne⟩ := List.mem_filter.mp hbf
      have hempty : b.children = [] := hhead b hbm hbn.symm
      rw [hempty] at hbne
      simp at hbne

theorem nodeOK_branchNamesUnique {t : resultTreeNode} (h : NodeOK t) :
    branchNamesUnique t = true := by
  induction h with
  | mk hp hok ih =>
    rw [branchNamesUnique, Bool.and_eq_true]
    refine ⟨allDistinct_of_pairwise hp, ?_⟩
    rw [List.all_eq_true]
    intro c hc
    exact ih c.1 c.2

/-- C8: in every tree `buildResultTree` can produce, a branch name is
unique among its parent's children — among any node's children, at most
one child with a given name has children of its own, because insertion
folds into the first child `findChild` returns rather than duplicating it.
In particular, inserting the two `ifDescr` table-instance results under
the `ifTable` walk root produces exactly one `ifDescr` branch holding one
leaf per instance suffix, never two column branches. -/
theorem result_tree_branch_unique (mb : Mib) (results : List snmpResult)
    (walkRoot : Option (List Nat)) :
    branchNamesUnique (buildResultTree mb results walkRoot) = true ∧
    buildResultTree mibIfTable [resIf1, resIf2] (some [1, 3, 6, 1, 2, 1, 2, 2])
      = expectedIfTree :=
  ⟨nodeOK_branchNamesUnique (buildResultTree_ok mb results walkRoot), rfl⟩

end Mibsh
